import Mathlib

/-!
Shallow embedding of `pdf2image/pdf2image.py` (a light wrapper around the
poppler-utils command line tools).  The functions below translate, line by
line, the page-range partitioning arithmetic of `convert_from_path`, the
buffer parser `__parse_buffer_to_png`, the page counter `__page_count` and
the final rename loop.  Python's `//` and `%` on `int` are floor division
and floor modulus, i.e. `Int.fdiv` / `Int.fmod`; `range(n)` for a possibly
negative `n` iterates `n.toNat` times; operations that can raise are
modelled in `Except String`.
-/

namespace Pdf2Image

/-- The state of `convert_from_path` after the clamping block and before the
partition loop (source lines 34-50).  Fields keep the Python variable
names: `threadCount` and `pageCount` are the *effective* values. -/
structure PartitionState where
  threadCount : Int
  firstPage : Int
  lastPage : Int
  pageCount : Int
  deriving Repr, DecidableEq

/-- The clamping block of `convert_from_path`, translated statement by
statement:

```
if thread_count < 1: thread_count = 1
if page_count < thread_count: thread_count = page_count
if first_page is None: first_page = 1
if last_page is None or last_page > page_count: last_page = page_count
page_count = last_page - first_page + 1
if thread_count > page_count: thread_count = page_count
```

`totalPageCount` is the value returned by `__page_count`. -/
def setupPartitions (totalPageCount : Int) (firstPage? lastPage? : Option Int)
    (threadCount : Int) : PartitionState :=
  let pageCount := totalPageCount
  let threadCount := if threadCount < 1 then 1 else threadCount
  let threadCount := if pageCount < threadCount then pageCount else threadCount
  let firstPage := match firstPage? with
    | none => 1
    | some f => f
  let lastPage := match lastPage? with
    | none => pageCount
    | some l => if l > pageCount then pageCount else l
  let pageCount := lastPage - firstPage + 1
  let threadCount := if threadCount > pageCount then pageCount else threadCount
  { threadCount := threadCount, firstPage := firstPage,
    lastPage := lastPage, pageCount := pageCount }

/-- The partition loop body of `convert_from_path` (source lines 53-66).
Each iteration computes
`thread_page_count = page_count // thread_count + int(reminder > 0)`,
emits the sub-range `[current_page, current_page + thread_page_count - 1]`
passed to `__build_command`, then advances `current_page` and decrements
`reminder`.  The fuel argument is the number of iterations of
`range(thread_count)`. -/
def partitionLoop : Nat → Int → Int → Int → Int → List (Int × Int)
  | 0, _, _, _, _ => []
  | n + 1, pageCount, threadCount, reminder, currentPage =>
    let threadPageCount := pageCount.fdiv threadCount + (if reminder > 0 then 1 else 0)
    (currentPage, currentPage + threadPageCount - 1) ::
      partitionLoop n pageCount threadCount
        (reminder - (if reminder > 0 then 1 else 0))
        (currentPage + threadPageCount)

/-- The page sub-ranges handed to the worker processes by
`convert_from_path`, in spawn order.  Python raises `ZeroDivisionError` at
`reminder = page_count % thread_count` when the clamped `thread_count` is
zero; otherwise `range(thread_count)` runs `max(thread_count, 0)` times. -/
def convertPartitions (totalPageCount : Int) (firstPage? lastPage? : Option Int)
    (threadCount : Int) : Except String (List (Int × Int)) :=
  let s := setupPartitions totalPageCount firstPage? lastPage? threadCount
  if s.threadCount = 0 then
    .error "ZeroDivisionError: integer division or modulo by zero"
  else
    .ok (partitionLoop s.threadCount.toNat s.pageCount s.threadCount
      (s.pageCount.fmod s.threadCount) s.firstPage)

/-- `coversRange ps lo hi` says the sub-ranges in `ps` are exactly a
contiguous, ascending, non-empty-piece decomposition of the inclusive
integer range `[lo, hi]`: the first piece starts at `lo`, each piece ends
no earlier than it starts, each subsequent piece starts right after the
previous one ends, and the last piece ends at `hi`. -/
def coversRange : List (Int × Int) → Int → Int → Prop
  | [], lo, hi => hi = lo - 1
  | (a, b) :: rest, lo, hi => a = lo ∧ lo ≤ b ∧ coversRange rest (b + 1) hi

/-- Sizes of the sub-ranges: a sub-range `(a, b)` covers `b - a + 1` pages. -/
def partSizes (ps : List (Int × Int)) : List Int :=
  ps.map (fun q => q.2 - q.1 + 1)

theorem coversRange_congr {ps : List (Int × Int)} {lo hi lo' hi' : Int}
    (h : coversRange ps lo hi) (hlo : lo = lo') (hhi : hi = hi') :
    coversRange ps lo' hi' := by
  subst hlo; subst hhi; exact h

theorem partitionLoop_length (pc tc : Int) :
    ∀ (n : Nat) (r c : Int), (partitionLoop n pc tc r c).length = n
  | 0, _, _ => rfl
  | n + 1, r, c => by
    simp only [partitionLoop, List.length_cons]
    rw [partitionLoop_length pc tc n]

/-- Loop invariant of the partition loop: starting from page `c` with `n`
iterations left and a reminder `0 ≤ r ≤ n`, the emitted sub-ranges tile the
range `[c, c + n * (pc.fdiv tc) + r - 1]`, provided each quotient share is
at least one page. -/
theorem partitionLoop_coversRange (pc tc : Int) (hb : 1 ≤ pc.fdiv tc) :
    ∀ (n : Nat) (r c : Int), 0 ≤ r → r ≤ (n : Int) →
      coversRange (partitionLoop n pc tc r c) c (c + n * pc.fdiv tc + r - 1) := by
  intro n
  induction n with
  | zero =>
    intro r c h0 h1
    have hr : r = 0 := le_antisymm (by exact_mod_cast h1) h0
    subst hr
    simp only [partitionLoop, coversRange, Nat.cast_zero]
    ring
  | succ n ih =>
    intro r c h0 h1
    by_cases hr : r > 0
    · simp only [partitionLoop, hr, if_pos, coversRange]
      refine ⟨trivial, by omega, ?_⟩
      have hn1 : r ≤ (n : Int) + 1 := by push_cast at h1; omega
      have hrec := ih (r - 1) (c + (pc.fdiv tc + 1)) (by omega) (by omega)
      exact coversRange_congr hrec (by ring) (by push_cast; ring)
    · have hr0 : r = 0 := by omega
      subst hr0
      simp only [partitionLoop, coversRange, gt_iff_lt, lt_self_iff_false, if_false,
        sub_zero, add_zero]
      refine ⟨trivial, by omega, ?_⟩
      have hrec := ih 0 (c + pc.fdiv tc) le_rfl (by positivity)
      exact coversRange_congr hrec (by ring) (by push_cast; ring)

/-- The sizes of the loop's sub-ranges: the first `r` pieces have
`pc.fdiv tc + 1` pages, the remaining `n - r` pieces have `pc.fdiv tc`. -/
theorem partitionLoop_sizes (pc tc : Int) :
    ∀ (n : Nat) (r c : Int), 0 ≤ r → r ≤ (n : Int) →
      partSizes (partitionLoop n pc tc r c) =
        List.replicate r.toNat (pc.fdiv tc + 1) ++
          List.replicate (n - r.toNat) (pc.fdiv tc) := by
  intro n
  induction n with
  | zero =>
    intro r c h0 h1
    have hr : r = 0 := le_antisymm (by exact_mod_cast h1) h0
    subst hr
    simp [partitionLoop, partSizes]
  | succ n ih =>
    intro r c h0 h1
    by_cases hr : r > 0
    · have htn : r.toNat = (r - 1).toNat + 1 := by omega
      have hsz : c + (pc.fdiv tc + 1) - 1 - c + 1 = pc.fdiv tc + 1 := by ring
      simp only [partitionLoop, hr, if_pos, partSizes, List.map_cons]
      rw [show (partitionLoop n pc tc (r - 1) (c + (pc.fdiv tc + 1))).map
            (fun q => q.2 - q.1 + 1) =
          partSizes (partitionLoop n pc tc (r - 1) (c + (pc.fdiv tc + 1))) from rfl,
        ih (r - 1) (c + (pc.fdiv tc + 1)) (by omega) (by omega),
        htn, List.replicate_succ, List.cons_append]
      have hlen : n + 1 - ((r - 1).toNat + 1) = n - (r - 1).toNat := by omega
      rw [hlen]
      simp [hsz]
    · have hr0 : r = 0 := by omega
      subst hr0
      have hsz : c + (pc.fdiv tc + 0) - 1 - c + 1 = pc.fdiv tc := by ring
      simp only [partitionLoop, gt_iff_lt, lt_self_iff_false, if_false, partSizes,
        List.map_cons, sub_zero]
      rw [show (partitionLoop n pc tc 0 (c + (pc.fdiv tc + 0))).map
            (fun q => q.2 - q.1 + 1) =
          partSizes (partitionLoop n pc tc 0 (c + (pc.fdiv tc + 0))) from rfl,
        ih 0 (c + (pc.fdiv tc + 0)) le_rfl (by positivity)]
      simp only [Int.toNat_zero, List.replicate_zero, List.nil_append, Nat.sub_zero,
        List.replicate_succ, List.cons.injEq]
      exact ⟨by ring, trivial⟩

theorem coversRange_lo_le :
    ∀ (ps : List (Int × Int)) (lo hi : Int), coversRange ps lo hi → lo - 1 ≤ hi
  | [], lo, hi, h => by
    simp only [coversRange] at h
    omega
  | (a, b) :: rest, lo, hi, h => by
    obtain ⟨h1, h2, h3⟩ := h
    have := coversRange_lo_le rest (b + 1) hi h3
    omega

theorem coversRange_mem_bounds :
    ∀ (ps : List (Int × Int)) (lo hi : Int), coversRange ps lo hi →
      ∀ q ∈ ps, lo ≤ q.1 ∧ q.1 ≤ q.2 ∧ q.2 ≤ hi
  | [], _, _, _, q, hq => absurd hq (List.not_mem_nil q)
  | (a, b) :: rest, lo, hi, h, q, hq => by
    obtain ⟨h1, h2, h3⟩ := h
    subst h1
    have hbhi : b ≤ hi := by
      have := coversRange_lo_le rest (b + 1) hi h3
      omega
    rcases List.mem_cons.mp hq with heq | hmem
    · subst heq
      exact ⟨le_rfl, h2, hbhi⟩
    · have := coversRange_mem_bounds rest (b + 1) hi h3 q hmem
      exact ⟨by omega, this.2.1, this.2.2⟩

/-- A `coversRange` decomposition assigns every page of `[lo, hi]` to
exactly one sub-range, and assigns no page outside `[lo, hi]`. -/
theorem coversRange_unique_assignment :
    ∀ (ps : List (Int × Int)) (lo hi p : Int), coversRange ps lo hi →
      ((lo ≤ p ∧ p ≤ hi) ↔ ∃! q, q ∈ ps ∧ q.1 ≤ p ∧ p ≤ q.2)
  | [], lo, hi, p, h => by
    simp only [coversRange] at h
    subst h
    constructor
    · intro hp; omega
    · rintro ⟨q, ⟨hq, -⟩, -⟩
      exact absurd hq (List.not_mem_nil q)
  | (a, b) :: rest, lo, hi, p, h => by
    obtain ⟨h1, h2, h3⟩ := h
    subst h1
    have hbhi : b ≤ hi := by
      have := coversRange_lo_le rest (b + 1) hi h3
      omega
    have hsub := coversRange_mem_bounds rest (b + 1) hi h3
    have ih := coversRange_unique_assignment rest (b + 1) hi p h3
    by_cases hp : p ≤ b
    · constructor
      · rintro ⟨hlo, -⟩
        refine ⟨(a, b), ⟨List.mem_cons_self _ _, hlo, hp⟩, ?_⟩
        rintro ⟨c, d⟩ ⟨hmem, hc, hd⟩
        rcases List.mem_cons.mp hmem with heq | hmem'
        · exact heq
        · have := (hsub _ hmem').1
          simp only at this hc
          omega
      · rintro ⟨q, ⟨hmem, hq1, hq2⟩, -⟩
        rcases List.mem_cons.mp hmem with heq | hmem'
        · subst heq
          exact ⟨hq1, by omega⟩
        · have := hsub _ hmem'
          omega
    · push_neg at hp
      constructor
      · rintro ⟨hlo, hhi⟩
        obtain ⟨q, hq, huniq⟩ := ih.mp ⟨by omega, hhi⟩
        refine ⟨q, ⟨List.mem_cons_of_mem _ hq.1, hq.2⟩, ?_⟩
        rintro ⟨c, d⟩ ⟨hmem, hc, hd⟩
        rcases List.mem_cons.mp hmem with heq | hmem'
        · exfalso
          have hd' : d = b := congrArg Prod.snd heq
          omega
        · exact huniq _ ⟨hmem', hc, hd⟩
      · rintro ⟨q, ⟨hmem, hq1, hq2⟩, -⟩
        rcases List.mem_cons.mp hmem with heq | hmem'
        · exfalso
          have hq2' : q.2 = b := congrArg Prod.snd heq
          omega
        · have := hsub _ hmem'
          exact ⟨by omega, by omega⟩

/-- For a valid page range `1 ≤ first ≤ last ≤ total`, the clamping block
resolves to: effective page count `last - first + 1`, effective thread
count `min (max tc 1) (last - first + 1)`. -/
theorem setupPartitions_valid (total first last tc : Int)
    (h1 : 1 ≤ first) (h2 : first ≤ last) (h3 : last ≤ total) :
    setupPartitions total (some first) (some last) tc =
      ⟨min (max tc 1) (last - first + 1), first, last, last - first + 1⟩ := by
  simp only [setupPartitions, min_def, max_def]
  split_ifs <;> (first | rfl | (exfalso; omega) | (congr 1 <;> omega))

/-- Master lemma: on a valid range `1 ≤ first ≤ last ≤ total`,
`convert_from_path` raises nothing, spawns
`min (max tc 1) (last - first + 1)` workers, the sub-ranges tile
`[first, last]`, and the sizes are `base + 1` for the first `remainder`
sub-ranges and `base` for the rest. -/
theorem convertPartitions_valid_spec (total first last tc : Int)
    (h1 : 1 ≤ first) (h2 : first ≤ last) (h3 : last ≤ total) :
    ∃ ps, convertPartitions total (some first) (some last) tc = .ok ps ∧
      coversRange ps first last ∧
      (ps.length : Int) = min (max tc 1) (last - first + 1) ∧
      partSizes ps =
        List.replicate ((last - first + 1).fmod (min (max tc 1) (last - first + 1))).toNat
          ((last - first + 1).fdiv (min (max tc 1) (last - first + 1)) + 1) ++
        List.replicate ((min (max tc 1) (last - first + 1)).toNat -
            ((last - first + 1).fmod (min (max tc 1) (last - first + 1))).toNat)
          ((last - first + 1).fdiv (min (max tc 1) (last - first + 1))) := by
  have hsetup := setupPartitions_valid total first last tc h1 h2 h3
  set pc : Int := last - first + 1 with hpc
  set m : Int := min (max tc 1) pc with hmdef
  have hpc1 : 1 ≤ pc := by omega
  have hm1 : 1 ≤ m := le_min (le_max_right tc 1) hpc1
  have hmpc : m ≤ pc := min_le_right _ _
  have hm0 : ¬ m = 0 := by omega
  have hmpos : 0 < m := by omega
  have hfd : pc.fdiv m = pc / m := Int.fdiv_eq_ediv pc (by omega)
  have hfm : pc.fmod m = pc % m := Int.fmod_eq_emod pc (by omega)
  have hid : m * (pc / m) + pc % m = pc := Int.ediv_add_emod pc m
  have hb : 1 ≤ pc.fdiv m := by
    rw [hfd]
    exact (Int.le_ediv_iff_mul_le hmpos).mpr (by omega)
  have hr0 : 0 ≤ pc.fmod m := by
    rw [hfm]
    exact Int.emod_nonneg pc (by omega)
  have hrlt : pc.fmod m < m := by
    rw [hfm]
    exact Int.emod_lt_of_pos pc hmpos
  have hcast : (m.toNat : Int) = m := Int.toNat_of_nonneg (by omega)
  have hstep : convertPartitions total (some first) (some last) tc =
      .ok (partitionLoop m.toNat pc m (pc.fmod m) first) := by
    unfold convertPartitions
    rw [hsetup]
    exact if_neg hm0
  refine ⟨partitionLoop m.toNat pc m (pc.fmod m) first, hstep, ?_, ?_, ?_⟩
  · have hcov := partitionLoop_coversRange pc m hb m.toNat (pc.fmod m) first hr0
      (by rw [hcast]; omega)
    refine coversRange_congr hcov rfl ?_
    rw [hcast, hfd, hfm]
    linarith [hid]
  · rw [partitionLoop_length]
    exact hcast
  · exact partitionLoop_sizes pc m m.toNat (pc.fmod m) first hr0 (by rw [hcast]; omega)

/-- C1: for every valid input `1 ≤ first ≤ last ≤ total` and any requested
thread count, `convert_from_path` computes sub-ranges that are contiguous,
non-overlapping, in ascending page order (`coversRange ps first last`:
the first starts at `first`, each next one starts right after the
previous one ends, the last ends at `last`), and every page is in the
inclusive range `[first, last]` iff it belongs to exactly one sub-range. -/
theorem convert_from_path_partitions_exact_cover (total first last tc : Int)
    (h1 : 1 ≤ first) (h2 : first ≤ last) (h3 : last ≤ total) :
    ∃ ps, convertPartitions total (some first) (some last) tc = .ok ps ∧
      coversRange ps first last ∧
      ∀ p : Int, (first ≤ p ∧ p ≤ last) ↔ ∃! q, q ∈ ps ∧ q.1 ≤ p ∧ p ≤ q.2 := by
  obtain ⟨ps, hok, hcov, -, -⟩ := convertPartitions_valid_spec total first last tc h1 h2 h3
  exact ⟨ps, hok, hcov, fun p => coversRange_unique_assignment ps first last p hcov⟩

theorem convert_from_path_partitions_exact_cover_witness :
    ∃ ps, convertPartitions 10 (some 2) (some 9) 3 = .ok ps ∧
      coversRange ps 2 9 ∧
      ∀ p : Int, (2 ≤ p ∧ p ≤ 9) ↔ ∃! q, q ∈ ps ∧ q.1 ≤ p ∧ p ≤ q.2 :=
  convert_from_path_partitions_exact_cover 10 2 9 3 (by decide) (by decide) (by decide)

/-- C2: on a valid input, with `base` the integer (floor) division of the
effective page count by the effective thread count and `remainder` the
corresponding modulus, the first `remainder` sub-ranges have `base + 1`
pages and the remaining ones have `base` pages, and the sub-ranges are
contiguous starting at `first` (`coversRange ps first last`). -/
theorem convert_from_path_partition_sizes (total first last tc pc t base rem : Int)
    (h1 : 1 ≤ first) (h2 : first ≤ last) (h3 : last ≤ total)
    (hpc : pc = last - first + 1) (ht : t = min (max tc 1) pc)
    (hbase : base = pc.fdiv t) (hrem : rem = pc.fmod t) :
    ∃ ps, convertPartitions total (some first) (some last) tc = .ok ps ∧
      partSizes ps =
        List.replicate rem.toNat (base + 1) ++
          List.replicate (t.toNat - rem.toNat) base ∧
      coversRange ps first last := by
  subst hpc ht hbase hrem
  obtain ⟨ps, hok, hcov, -, hsizes⟩ :=
    convertPartitions_valid_spec total first last tc h1 h2 h3
  exact ⟨ps, hok, hsizes, hcov⟩

/-- Witness for C2 at the spec's example: a 10-page document split across
3 threads (default page range) gives partition sizes `[4, 3, 3]`. -/
theorem convert_from_path_partition_sizes_witness :
    (∃ ps, convertPartitions 10 (some 1) (some 10) 3 = .ok ps ∧
      partSizes ps =
        List.replicate (1 : Int).toNat ((3 : Int) + 1) ++
          List.replicate ((3 : Int).toNat - (1 : Int).toNat) (3 : Int) ∧
      coversRange ps 1 10) ∧
    convertPartitions 10 none none 3 = .ok [(1, 4), (5, 7), (8, 10)] ∧
    partSizes [((1 : Int), (4 : Int)), (5, 7), (8, 10)] = [4, 3, 3] := by
  refine ⟨?_, by rfl, by decide⟩
  exact convert_from_path_partition_sizes 10 1 10 3 10 3 3 1
    (by decide) (by decide) (by decide) (by decide) (by decide) (by decide) (by decide)

/-- C3: for every caller-supplied thread count (zero, negative or larger
than the page range included), on a valid range the number of spawned
partitions is `min (max tc 1) (last - first + 1)`, which lies in
`[1, last - first + 1]`. -/
theorem convert_from_path_thread_count_clamped (total first last tc : Int)
    (h1 : 1 ≤ first) (h2 : first ≤ last) (h3 : last ≤ total) :
    ∃ ps, convertPartitions total (some first) (some last) tc = .ok ps ∧
      (ps.length : Int) = min (max tc 1) (last - first + 1) ∧
      1 ≤ ps.length ∧ (ps.length : Int) ≤ last - first + 1 := by
  obtain ⟨ps, hok, -, hlen, -⟩ := convertPartitions_valid_spec total first last tc h1 h2 h3
  have hm1 : (1 : Int) ≤ min (max tc 1) (last - first + 1) :=
    le_min (le_max_right tc 1) (by omega)
  refine ⟨ps, hok, hlen, ?_, ?_⟩
  · omega
  · rw [hlen]
    exact min_le_right _ _

/-- Witness for C3 at the spec's example: requesting 16 threads for a
3-page range yields exactly 3 partitions. -/
theorem convert_from_path_thread_count_clamped_witness :
    (∃ ps, convertPartitions 3 (some 1) (some 3) 16 = .ok ps ∧
      (ps.length : Int) = min (max 16 1) (3 - 1 + 1) ∧
      1 ≤ ps.length ∧ (ps.length : Int) ≤ 3 - 1 + 1) ∧
    convertPartitions 3 (some 1) (some 3) 16 = .ok [(1, 1), (2, 2), (3, 3)] := by
  exact ⟨convert_from_path_thread_count_clamped 3 1 3 16
    (by decide) (by decide) (by decide), by rfl⟩

/-- Closed form of the clamping block when both `first_page` and
`last_page` are supplied, with no validity assumption. -/
theorem setupPartitions_some_eq (total first last tc : Int) :
    setupPartitions total (some first) (some last) tc =
      ⟨min (min total (max tc 1)) (min last total - first + 1), first, min last total,
        min last total - first + 1⟩ := by
  simp only [setupPartitions, min_def, max_def]
  split_ifs <;> (first | rfl | (exfalso; omega) | (congr 1 <;> omega))

/-- Closed form of the clamping block when `last_page` is left at its
default (`None`), with no validity assumption. -/
theorem setupPartitions_none_eq (total first tc : Int) :
    setupPartitions total (some first) none tc =
      ⟨min (min total (max tc 1)) (total - first + 1), first, total,
        total - first + 1⟩ := by
  simp only [setupPartitions, min_def, max_def]
  split_ifs <;> (first | rfl | (exfalso; omega) | (congr 1 <;> omega))

/-- C9: when the effective page count is zero — here `first_page` equal to
`total + 1` with `last_page` left at its default, on a document with at
least one page — the clamped thread count is `0` and `convert_from_path`
raises `ZeroDivisionError` at the computation
`reminder = page_count % thread_count`, instead of returning an empty
list or a described error. -/
theorem convert_from_path_zero_page_count_division_error (total tc : Int)
    (htot : 1 ≤ total) :
    (setupPartitions total (some (total + 1)) none tc).pageCount = 0 ∧
    (setupPartitions total (some (total + 1)) none tc).threadCount = 0 ∧
    convertPartitions total (some (total + 1)) none tc =
      .error "ZeroDivisionError: integer division or modulo by zero" := by
  have hs := setupPartitions_none_eq total (total + 1) tc
  have hpc : total - (total + 1) + 1 = 0 := by ring
  have htc : min (min total (max tc 1)) (total - (total + 1) + 1) = 0 := by omega
  refine ⟨by rw [hs]; exact hpc, by rw [hs]; exact htc, ?_⟩
  unfold convertPartitions
  rw [hs]
  exact if_pos htc

theorem convert_from_path_zero_page_count_division_error_witness :
    (1 : Int) ≤ 5 ∧
    ((setupPartitions 5 (some 6) none 4).pageCount = 0 ∧
      (setupPartitions 5 (some 6) none 4).threadCount = 0 ∧
      convertPartitions 5 (some 6) none 4 =
        .error "ZeroDivisionError: integer division or modulo by zero") :=
  ⟨by decide, convert_from_path_zero_page_count_division_error 5 4 (by decide)⟩

/-- C10: when `first_page > last_page` and the effective page count
`last_page - first_page + 1` is negative, the clamped thread count is that
negative number, `range(thread_count)` iterates zero times so no worker
process is spawned, and `convert_from_path` returns the empty list
without raising: the partition list is `[]`. -/
theorem convert_from_path_reversed_range_empty (total first last tc : Int)
    (htot : 1 ≤ total) (hfl : last < first)
    (hneg : (setupPartitions total (some first) (some last) tc).pageCount < 0) :
    (setupPartitions total (some first) (some last) tc).threadCount < 0 ∧
    convertPartitions total (some first) (some last) tc = .ok [] := by
  have hs := setupPartitions_some_eq total first last tc
  have hneg' : min last total - first + 1 < 0 := by
    rw [hs] at hneg
    exact hneg
  constructor
  · rw [hs]
    show min (min total (max tc 1)) (min last total - first + 1) < 0
    omega
  · unfold convertPartitions
    rw [hs]
    dsimp only
    rw [if_neg (by omega : ¬ min (min total (max tc 1)) (min last total - first + 1) = 0)]
    have htn : (min (min total (max tc 1)) (min last total - first + 1)).toNat = 0 := by
      omega
    rw [htn]
    rfl

theorem convert_from_path_reversed_range_empty_witness :
    (1 : Int) ≤ 5 ∧ (2 : Int) < 4 ∧
      (setupPartitions 5 (some 4) (some 2) 4).pageCount < 0 ∧
    ((setupPartitions 5 (some 4) (some 2) 4).threadCount < 0 ∧
      convertPartitions 5 (some 4) (some 2) 4 = .ok []) :=
  ⟨by decide, by decide, by decide,
    convert_from_path_reversed_range_empty 5 4 2 4 (by decide) (by decide) (by decide)⟩

/-- The four bytes of `b'IEND'`, the PNG trailer chunk type scanned for by
`__parse_buffer_to_png`. -/
def IENDmarker : List Nat := [73, 69, 78, 68]

/-- Python's `bytes.index(sub)` on a byte list: the least index at which
`sub` occurs, or `none` — which `bytes.index` turns into `ValueError` —
when it occurs nowhere. -/
def findSub (pat : List Nat) : List Nat → Option Nat
  | [] => if pat.isPrefixOf ([] : List Nat) then some 0 else none
  | a :: rest =>
    if pat.isPrefixOf (a :: rest) then some 0
    else (findSub pat rest).map (· + 1)

/-- `__parse_buffer_to_png`: while data remains, find `IEND` in the
remaining suffix, slice off `index + 8` bytes (4 for `IEND`, 4 for the
CRC) as one image, and continue after the slice.  `bytes.index` raises
`ValueError` when no `IEND` occurs in the remaining data. -/
def parsePngChunks : List Nat → Except String (List (List Nat))
  | [] => .ok []
  | a :: rest =>
    match findSub IENDmarker (a :: rest) with
    | none => .error "ValueError: subsection not found"
    | some i =>
      match parsePngChunks ((a :: rest).drop (i + 8)) with
      | .error e => .error e
      | .ok more => .ok ((a :: rest).take (i + 8) :: more)
termination_by d => d.length
decreasing_by
  simp only [List.length_drop, List.length_cons]
  omega

/-- The buffer-mode collection loop of `convert_from_path`: for each
worker process, in spawn order, take the captured standard output and
parse it with `__parse_buffer_to_png`, concatenating the results.  The
`Int` component is the process's exit status; the loop never consults
it. -/
def collectBufferMode : List (Int × List Nat) → Except String (List (List Nat))
  | [] => .ok []
  | (_, data) :: rest =>
    match parsePngChunks data with
    | .error e => .error e
    | .ok imgs =>
      match collectBufferMode rest with
      | .error e => .error e
      | .ok more => .ok (imgs ++ more)

/-- A well-formed PNG container as the spec describes one: some payload in
which the end marker does not occur, then the `IEND` chunk type, then the
four CRC bytes that close the stream. -/
def wellFormedPng (c : List Nat) : Prop :=
  ∃ payload crc : List Nat,
    c = payload ++ IENDmarker ++ crc ∧ crc.length = 4 ∧ ¬ IENDmarker <:+: payload

/-- `findSub` returns the least occurrence: if `pat` occurs at `j` and at
no smaller index, the search returns `j`. -/
theorem findSub_eq_some_of (pat : List Nat) :
    ∀ (l : List Nat) (j : Nat), pat <+: l.drop j →
      (∀ i, i < j → ¬ pat <+: l.drop i) → findSub pat l = some j
  | [], 0, hj, _ => by
    simp only [findSub]
    rw [if_pos (List.isPrefixOf_iff_prefix.mpr (by simpa using hj))]
  | [], j + 1, hj, hmin => by
    exact absurd (by simpa using hj) (by simpa using hmin 0 (Nat.succ_pos j))
  | a :: rest, 0, hj, _ => by
    simp only [findSub]
    rw [if_pos (List.isPrefixOf_iff_prefix.mpr (by simpa using hj))]
  | a :: rest, j + 1, hj, hmin => by
    simp only [findSub]
    rw [if_neg (by
      intro hpre
      exact hmin 0 (Nat.succ_pos j) (by simpa using List.isPrefixOf_iff_prefix.mp hpre))]
    rw [findSub_eq_some_of pat rest j (by simpa using hj)
      (fun i hi => by simpa using hmin (i + 1) (by omega))]
    rfl

/-- In `payload ++ IEND ++ crc ++ tail` with the marker nowhere inside the
payload, the marker does not occur at any index strictly before
`payload.length`: an occurrence fully inside the payload is excluded by
hypothesis, and an occurrence straddling the payload boundary would force
`IEND` to overlap itself, which its four bytes do not allow. -/
theorem no_marker_before_payload_end (payload rest : List Nat)
    (hnin : ¬ IENDmarker <:+: payload) (j : Nat) (hj : j < payload.length) :
    ¬ IENDmarker <+: (payload ++ IENDmarker ++ rest).drop j := by
  intro h
  have hlen4 : IENDmarker.length = 4 := by simp [IENDmarker]
  rw [List.append_assoc, List.drop_append_of_le_length (by omega)] at h
  set s : List Nat := payload.drop j with hs
  have hslen : s.length = payload.length - j := List.length_drop j payload
  by_cases hlong : 4 ≤ s.length
  · -- the occurrence lies fully inside the payload
    have htake := List.prefix_iff_eq_take.mp h
    rw [List.take_append_eq_append_take] at htake
    have h4 : IENDmarker.length - s.length = 0 := by omega
    rw [h4, List.take_zero, List.append_nil] at htake
    have hpre : IENDmarker <+: s := htake ▸ List.take_prefix IENDmarker.length s
    exact hnin ((hpre.isInfix).trans (List.drop_suffix j payload).isInfix)
  · -- the occurrence straddles the payload/marker boundary
    push_neg at hlong
    have hs1 : 1 ≤ s.length := by omega
    have hspre : s <+: IENDmarker :=
      List.prefix_of_prefix_length_le (List.prefix_append s _) h (by omega)
    have hseq : s = IENDmarker.take s.length := List.prefix_iff_eq_take.mp hspre
    have htake := List.prefix_iff_eq_take.mp h
    rw [List.take_append_eq_append_take, List.take_of_length_le (by omega),
      List.take_append_eq_append_take] at htake
    have hz : IENDmarker.length - s.length - IENDmarker.length = 0 := by omega
    rw [hz, List.take_zero, List.append_nil, hlen4] at htake
    rw [hseq] at htake
    have hcases : s.length = 1 ∨ s.length = 2 ∨ s.length = 3 := by omega
    rcases hcases with hc | hc | hc <;> rw [hc] at htake <;>
      exact absurd htake (by decide)

/-- At the head of a stream that starts with a well-formed container, the
first `IEND` occurrence is exactly at the end of the payload. -/
theorem findSub_of_wellFormed_head (payload rest : List Nat)
    (hnin : ¬ IENDmarker <:+: payload) :
    findSub IENDmarker (payload ++ IENDmarker ++ rest) = some payload.length := by
  apply findSub_eq_some_of
  · rw [List.append_assoc, List.drop_append_of_le_length le_rfl, List.drop_length,
      List.nil_append]
    exact List.prefix_append IENDmarker rest
  · intro i hi
    exact no_marker_before_payload_end payload rest hnin i hi

/-- Unfolding equation for `parsePngChunks` on non-empty data. -/
theorem parsePngChunks_ne_nil (d : List Nat) (hd : d ≠ []) :
    parsePngChunks d =
      match findSub IENDmarker d with
      | none => .error "ValueError: subsection not found"
      | some i =>
        match parsePngChunks (d.drop (i + 8)) with
        | .error e => .error e
        | .ok more => .ok (d.take (i + 8) :: more) := by
  cases d with
  | nil => exact absurd rfl hd
  | cons a l => rw [parsePngChunks]

/-- C4: a byte stream that is the concatenation of `N` well-formed PNG
containers — each terminated by the fixed `IEND`-plus-CRC trailer, with
the marker not occurring inside any payload — is parsed by
`__parse_buffer_to_png` into exactly those `N` containers, in the
original concatenation order. -/
theorem parse_buffer_to_png_exact (cs : List (List Nat))
    (h : ∀ c ∈ cs, wellFormedPng c) :
    parsePngChunks cs.flatten = .ok cs := by
  induction cs with
  | nil =>
    show parsePngChunks [] = .ok []
    rw [parsePngChunks]
  | cons c cs ih =>
    obtain ⟨payload, crc, hc, hcrc, hnin⟩ := h c (List.mem_cons_self c cs)
    have hclen : c.length = payload.length + 8 := by
      rw [hc]
      simp [IENDmarker, hcrc]
    have hassoc : c ++ cs.flatten = payload ++ IENDmarker ++ (crc ++ cs.flatten) := by
      rw [hc]
      simp [List.append_assoc]
    rw [List.flatten_cons, parsePngChunks_ne_nil (c ++ cs.flatten)
      (by intro hnil; have := congrArg List.length hnil; simp [hclen] at this)]
    rw [hassoc, findSub_of_wellFormed_head payload (crc ++ cs.flatten) hnin]
    dsimp only
    have htake : (payload ++ IENDmarker ++ (crc ++ cs.flatten)).take (payload.length + 8) = c := by
      rw [← hassoc, ← hclen, List.take_left]
    have hdrop : (payload ++ IENDmarker ++ (crc ++ cs.flatten)).drop (payload.length + 8) =
        cs.flatten := by
      rw [← hassoc, ← hclen, List.drop_left]
    rw [hdrop, htake, ih (fun d hd => h d (List.mem_cons_of_mem c hd))]

theorem parse_buffer_to_png_exact_witness :
    parsePngChunks
        ([[73, 69, 78, 68, 0, 0, 0, 0], [1, 73, 69, 78, 68, 9, 9, 9, 9]] :
          List (List Nat)).flatten =
      .ok [[73, 69, 78, 68, 0, 0, 0, 0], [1, 73, 69, 78, 68, 9, 9, 9, 9]] := by
  apply parse_buffer_to_png_exact
  intro c hc
  rcases List.mem_cons.mp hc with hc1 | hc2
  · exact ⟨[], [0, 0, 0, 0], by rw [hc1]; rfl, rfl, by decide⟩
  · have hc2' : c = [1, 73, 69, 78, 68, 9, 9, 9, 9] := by simpa using hc2
    exact ⟨[1], [9, 9, 9, 9], by rw [hc2']; rfl, rfl, by decide⟩

/-- C6 amended: converter process failure is indeed not detected at
collection time — the exit status is never consulted — but only garbage
(non-empty, marker-free) stdout surfaces later as an unrelated
`ValueError` parsing failure; empty stdout silently contributes zero
images and raises nothing. -/
theorem converter_failure_unchecked_at_collection (status : Int) (data : List Nat)
    (hne : data ≠ []) (hno : findSub IENDmarker data = none) :
    (∀ (outs : List (Int × List Nat)) (f : Int → Int),
      collectBufferMode (outs.map (fun w => (f w.1, w.2))) = collectBufferMode outs) ∧
    collectBufferMode [(status, data)] = .error "ValueError: subsection not found" ∧
    collectBufferMode [(status, [])] = .ok [] := by
  refine ⟨?_, ?_, ?_⟩
  · intro outs f
    induction outs with
    | nil => rfl
    | cons w rest ih =>
      obtain ⟨s, d⟩ := w
      simp only [List.map_cons, collectBufferMode]
      rw [ih]
  · have hparse : parsePngChunks data = .error "ValueError: subsection not found" := by
      rw [parsePngChunks_ne_nil data hne, hno]
    simp only [collectBufferMode, hparse]
  · have hparse : parsePngChunks ([] : List Nat) = .ok [] := by rw [parsePngChunks]
    simp only [collectBufferMode, hparse]
    rfl

theorem converter_failure_unchecked_at_collection_witness :
    ([0] : List Nat) ≠ [] ∧ findSub IENDmarker [0] = none ∧
    (collectBufferMode [((1 : Int), ([0] : List Nat))] =
        .error "ValueError: subsection not found" ∧
      collectBufferMode [((1 : Int), ([] : List Nat))] = .ok []) :=
  ⟨by decide, by decide,
    (converter_failure_unchecked_at_collection 1 [0] (by decide) (by decide)).2⟩

/-- C6 counterexample to the claim as stated: a worker that exited with
nonzero status and empty stdout does not surface any parsing failure —
the buffer parser's `while index < len(data)` loop body never runs on
empty data, so collection returns an empty image list successfully. -/
theorem empty_stdout_no_parsing_failure : collectBufferMode [(1, [])] = .ok [] := by
  have hparse : parsePngChunks ([] : List Nat) = .ok [] := by rw [parsePngChunks]
  simp only [collectBufferMode, hparse]
  rfl

/-- Modelled from the spec: the deletion step `os.path.remove(new_name)`
that `convert_from_path` attempts when the target of a rename already
exists.  `os.path` — a Python standard library module, not part of this
repository — provides no `remove` attribute (the spec: "attempting to
delete before rename uses a nonexistent removal primitive, which is
itself not functional"), so there is no function to call and the lookup
raises `AttributeError`. -/
def osPathRemove : Option (List String → String → List String) := none

/-- The rename loop of `convert_from_path` (source lines 77-83): images
are represented by the paths of their backing files, `fs` is the list of
files on disk, `dirOf` and `pathJoin` stand for `os.path.dirname` and
`os.path.join`, and `pageIdx` carries `first_page + idx`.  Each step
builds the new name, checks `os.path.exists`, on a hit attempts the
nonexistent `os.path.remove`, then renames (the old backing file
disappears, the new name appears).  Returns the new backing-file names in
list order, with the final disk state. -/
def renameImages (dirOf : String → String) (pathJoin : String → String → String)
    (pdfName : String) :
    List String → Int → List String → Except String (List String × List String)
  | [], _, fs => .ok ([], fs)
  | img :: rest, pageIdx, fs =>
    let newName := pathJoin (dirOf img) (pdfName ++ "-" ++ toString pageIdx ++ ".png")
    match (if newName ∈ fs then
        match osPathRemove with
        | none => Except.error "AttributeError: module os.path has no attribute remove"
        | some remove => Except.ok ( remove fs newName)
      else Except.ok fs) with
    | .error e => .error e
    | .ok fs1 =>
      match renameImages dirOf pathJoin pdfName rest (pageIdx + 1)
          ((fs1.erase img).concat newName) with
      | .error e => .error e
      | .ok (names, fs2) => .ok (newName :: names, fs2)

/-- C7: at any step of the rename loop whose target name already exists
on disk, the call crashes with `AttributeError` — `os.path.exists` is
true, so the code attempts `os.path.remove`, which does not exist — and
no silent overwrite completes. -/
theorem rename_collision_crashes (dirOf : String → String)
    (pathJoin : String → String → String) (pdfName img : String) (pageIdx : Int)
    (rest fs : List String)
    (hcol : pathJoin (dirOf img) (pdfName ++ "-" ++ toString pageIdx ++ ".png") ∈ fs) :
    renameImages dirOf pathJoin pdfName (img :: rest) pageIdx fs =
      .error "AttributeError: module os.path has no attribute remove" := by
  simp only [renameImages, osPathRemove]
  rw [if_pos hcol]

theorem rename_collision_crashes_witness :
    ("out" ++ "/" ++ ("doc" ++ "-" ++ toString (3 : Int) ++ ".png")) ∈
        ["out/doc-3.png"] ∧
    renameImages (fun _ => "out") (fun d b => d ++ "/" ++ b) "doc"
        ["out/old.png"] 3 ["out/doc-3.png"] =
      .error "AttributeError: module os.path has no attribute remove" :=
  ⟨by decide,
    rename_collision_crashes (fun _ => "out") (fun d b => d ++ "/" ++ b) "doc"
      "out/old.png" 3 [] ["out/doc-3.png"] (by decide)⟩

/-- C5: on every successful pass of the rename loop, the name given to
the image at position `i` of the returned list is built from the
document stem and the absolute page index `first_page + i`; as the index
grows with the position, the returned list is ordered by absolute page
index. -/
theorem rename_names_by_position (dirOf : String → String)
    (pathJoin : String → String → String) (pdfName : String) :
    ∀ (images : List String) (firstPage : Int) (fs names fs' : List String),
      renameImages dirOf pathJoin pdfName images firstPage fs = .ok (names, fs') →
      names.length = images.length ∧
      ∀ (i : Nat) (img : String), images.get? i = some img →
        names.get? i = some (pathJoin (dirOf img)
          (pdfName ++ "-" ++ toString (firstPage + (i : Int)) ++ ".png"))
  | [], firstPage, fs, names, fs', h => by
    simp only [renameImages, Except.ok.injEq, Prod.mk.injEq] at h
    obtain ⟨hn, -⟩ := h
    subst hn
    exact ⟨rfl, fun i img hi => by simp at hi⟩
  | img :: rest, firstPage, fs, names, fs', h => by
    simp only [renameImages] at h
    by_cases hcol : pathJoin (dirOf img)
        (pdfName ++ "-" ++ toString firstPage ++ ".png") ∈ fs
    · rw [if_pos hcol] at h
      simp only [osPathRemove] at h
      exact absurd h (by simp)
    · rw [if_neg hcol] at h
      simp only at h
      set newName := pathJoin (dirOf img)
        (pdfName ++ "-" ++ toString firstPage ++ ".png") with hnew
      cases hrec : renameImages dirOf pathJoin pdfName rest (firstPage + 1)
          ((fs.erase img).concat newName) with
      | error e => rw [hrec] at h; exact absurd h (by simp)
      | ok p =>
        obtain ⟨names', fs2⟩ := p
        rw [hrec] at h
        simp only [Except.ok.injEq, Prod.mk.injEq] at h
        obtain ⟨hn, -⟩ := h
        subst hn
        obtain ⟨hlen, hpos⟩ := rename_names_by_position dirOf pathJoin pdfName rest
          (firstPage + 1) ((fs.erase img).concat newName) names' fs2 hrec
        refine ⟨by simp [hlen], ?_⟩
        intro i imgI hi
        cases i with
        | zero =>
          simp only [List.get?_cons_zero, Option.some.injEq] at hi
          subst hi
          simp only [List.get?_cons_zero, Option.some.injEq, hnew]
          have : firstPage + ((0 : Nat) : Int) = firstPage := by push_cast; ring
          rw [this]
        | succ i' =>
          simp only [List.get?_cons_succ] at hi ⊢
          have := hpos i' imgI hi
          rw [this]
          have : firstPage + 1 + (i' : Int) = firstPage + ((i' + 1 : Nat) : Int) := by
            push_cast; ring
          rw [this]

theorem rename_names_by_position_witness :
    (renameImages (fun _ => "out") (fun d b => d ++ "/" ++ b) "doc"
        ["out/a.png", "out/b.png"] 3 ["out/a.png", "out/b.png"] =
      .ok (["out/doc-3.png", "out/doc-4.png"],
        ["out/doc-3.png", "out/doc-4.png"])) ∧
    (["out/doc-3.png", "out/doc-4.png"] : List String).length =
      (["out/a.png", "out/b.png"] : List String).length ∧
    ∀ (i : Nat) (img : String),
      (["out/a.png", "out/b.png"] : List String).get? i = some img →
      (["out/doc-3.png", "out/doc-4.png"] : List String).get? i =
        some ((fun d b => d ++ "/" ++ b) ((fun _ => "out") img)
          ("doc" ++ "-" ++ toString ((3 : Int) + (i : Int)) ++ ".png")) := by
  constructor
  · rfl
  · exact rename_names_by_position (fun _ => "out") (fun d b => d ++ "/" ++ b) "doc"
      ["out/a.png", "out/b.png"] 3 ["out/a.png", "out/b.png"]
      ["out/doc-3.png", "out/doc-4.png"] ["out/doc-3.png", "out/doc-4.png"] (by rfl)

/-- Python's regex class `\s` (whitespace). -/
def isPySpace (ch : Char) : Bool :=
  ch = ' ' || ch = '\t' || ch = '\n' || ch = '\r' || ch = '\x0b' || ch = '\x0c'

/-- Python's regex class `\d` (ASCII decimal digit). -/
def isPyDigit (ch : Char) : Bool :=
  '0' ≤ ch && ch ≤ '9'

/-- `int` applied to a run of decimal digits. -/
def digitsToNat (ds : List Char) : Nat :=
  ds.foldl (fun acc ch => 10 * acc + (ch.toNat - '0'.toNat)) 0

/-- One attempt of the pattern `Pages:\s+(\d+)` anchored at the current
position: the six literal characters `Pages:`, then at least one
whitespace, then at least one digit.  `\s+` and `\d+` are greedy and the
two classes are disjoint, so maximal runs are exact; group 1 is the digit
run, converted by `int`. -/
def matchPagesAt (l : List Char) : Option Nat :=
  if ("Pages:".toList).isPrefixOf l then
    let rest := l.drop 6
    let ws := rest.takeWhile isPySpace
    if ws.isEmpty then none
    else
      let ds := (rest.drop ws.length).takeWhile isPyDigit
      if ds.isEmpty then none else some (digitsToNat ds)
  else none

/-- `re.search(r'Pages:\s+(\d+)', out)`: try the pattern at every
position, left to right, returning the first match's captured integer. -/
def searchPages : List Char → Option Nat
  | [] => none
  | a :: rest =>
    match matchPagesAt (a :: rest) with
    | some n => some n
    | none => searchPages rest

/-- `__page_count` after the subprocess call, on the decoded stdout text:
inside the `try`, `re.search` returning `None` makes `.group(1)` raise,
and the bare `except` replaces any such failure with the single generic
`Exception('Unable to get page count.')`; on a match the captured digits
are returned as an integer. -/
def pageCountOf (out : List Char) : Except String Nat :=
  match searchPages out with
  | some n => .ok n
  | none => .error "Unable to get page count."

/-- C8: the page counter fails exactly when no integer follows a
`Pages:` label anywhere in the info tool's output (pattern absent — which
is also how a process failure, producing empty or unrelated output,
surfaces), and then always with the one generic message, independent of
the failure's cause; when the pattern is present it returns the matched
integer. -/
theorem page_count_generic_error :
    (∀ out : List Char, searchPages out = none →
      pageCountOf out = .error "Unable to get page count.") ∧
    (∀ (out : List Char) (n : Nat), searchPages out = some n →
      pageCountOf out = .ok n) ∧
    (∀ out1 out2 : List Char, searchPages out1 = none → searchPages out2 = none →
      pageCountOf out1 = pageCountOf out2) := by
  refine ⟨?_, ?_, ?_⟩
  · intro out hnone
    simp only [pageCountOf, hnone]
  · intro out n hsome
    simp only [pageCountOf, hsome]
  · intro out1 out2 h1 h2
    simp only [pageCountOf, h1, h2]

/-- Witness for C8: a matching output yields its page count, and the two
distinct failure outputs — a corrupt-file message and a wrong-password
message — yield the same generic error. -/
theorem page_count_generic_error_witness :
    pageCountOf ("Pages:          25".toList) = .ok 25 ∧
    pageCountOf ("Syntax Error: file corrupt".toList) =
      .error "Unable to get page count." ∧
    pageCountOf ("Command Line Error: Incorrect password".toList) =
      pageCountOf ("Syntax Error: file corrupt".toList) :=
  ⟨page_count_generic_error.2.1 _ 25 (by decide),
    page_count_generic_error.1 _ (by decide),
    page_count_generic_error.2.2 _ _ (by decide) (by decide)⟩

end Pdf2Image
